import Mathlib

/-!
Verification of the two scripts in `azure-resource-management-scripts`:

* `filter_user_groups.py` — a CSV row filter that drops rows whose `Name`
  field (BOM-stripped) contains one of a fixed list of environment markers.
* `list_resource_types.py` — an inventory aggregator that resolves target
  subscriptions, lists resources, and tallies them by type / location /
  resource group / subscription.

The Lean definitions below are shallow embeddings of the Python functions:
rows and resources become structures, Python dicts become association lists
with insert-overwrite semantics, `Counter(...).most_common(...)` becomes a
first-encounter tally followed by a stable descending insertion sort, and
`round(x, 2)` is modelled over `ℚ` with integer rounding of `x * 100`.
-/

namespace FilterGroups

/-- A CSV row as produced by `csv.DictReader`: the `Name` field may be absent
(`none` models a row mapping with no `Name` key, for which the get call with a
default returns the empty string). -/
structure Row where
  name : Option String
  id : String
deriving DecidableEq

/-- The fixed exclusion list from `filter_production_groups`
(`filter_user_groups.py`, line 11). -/
def exclusionStrings : List String :=
  ["DV", "DEV", "UAT", "SB", "DIT", "PT", "SIT", "Dev", "UA", "QA",
   "Test", "Sandbox", "SANDBOX", "SandBox"]

/-- Model of the lstrip call on line 25: drop every leading BOM character. -/
def stripBOM (s : String) : String :=
  List.asString (s.toList.dropWhile (fun c => c = '﻿'))

/-- Decide whether `nd` is an initial run of `hay`. -/
def startsWithChars : List Char → List Char → Bool
  | _, [] => true
  | [], _ :: _ => false
  | h :: hs, n :: ns => h == n && startsWithChars hs ns

/-- Model of the Python substring test `nd in hay`. -/
def containsSub : List Char → List Char → Bool
  | [], needle => needle.isEmpty
  | h :: t, needle => startsWithChars (h :: t) needle || containsSub t needle

/-- Model of line 25: read the `Name` field, defaulting to the empty string,
and strip leading BOM characters. -/
def cleanName (r : Row) : String :=
  stripBOM (r.name.getD "")

/-- Model of line 28: some exclusion string occurs in the cleaned name. -/
def shouldExclude (r : Row) : Bool :=
  exclusionStrings.any (fun e => containsSub (cleanName r).toList e.toList)

/-- The row-filtering pass of `filter_production_groups` (lines 22–33):
keep exactly the rows that are not excluded, in input order. -/
def filterProductionGroups (rows : List Row) : List Row :=
  rows.filter (fun r => !shouldExclude r)

/-- Spec-side exclusion predicate: some exclusion string occurs as a
contiguous substring of the BOM-stripped name. -/
def SpecExcluded (r : Row) : Prop :=
  ∃ e ∈ exclusionStrings, ∃ pre post : List Char,
    (cleanName r).toList = pre ++ e.toList ++ post

end FilterGroups

namespace ResourceAnalyzer

/-- A subscription as exposed by the subscription listing API:
`{display_name, subscription_id, state}`. -/
structure Subscription where
  display_name : String
  subscription_id : String
  state : String
deriving DecidableEq

/-- A listed resource record as built in `get_resources_from_subscription`. -/
structure Resource where
  type : String
  name : String
  location : String
  resource_group : String
  subscription_id : String
deriving DecidableEq

/-- Python dict assignment `m[k] = v`: overwrite the value when the key is
present, otherwise append the new binding at the end (insertion order). -/
def upsert (m : List (String × String)) (k v : String) : List (String × String) :=
  if m.any (fun p => p.1 == k) then
    m.map (fun p => if p.1 == k then (k, v) else p)
  else m ++ [(k, v)]

/-- One iteration of the subscription loop in `get_subscriptions`
(lines 40–43): enabled subscriptions register both their display name and
their ID as keys mapping to the subscription ID. -/
def subsStep (m : List (String × String)) (s : Subscription) : List (String × String) :=
  if s.state == "Enabled" then
    upsert (upsert m s.display_name s.subscription_id) s.subscription_id s.subscription_id
  else m

/-- The `all_subscriptions` dict built by `get_subscriptions`. -/
def allSubscriptions (subs : List Subscription) : List (String × String) :=
  subs.foldl subsStep []

/-- Dictionary access `all_subscriptions[target]` when the key is present
(`target in all_subscriptions`). -/
def resolveTarget (subs : List Subscription) (t : String) : Option String :=
  (allSubscriptions subs).lookup t

/-- The target-matching loop of `get_subscriptions` (lines 51–56): resolved
IDs of found targets, in target-list order; unmatched targets are skipped. -/
def getSubscriptions (subs : List Subscription) (targets : List String) : List String :=
  targets.filterMap (resolveTarget subs)

/-- Python `str.split(sep)` for a one-character separator: split at every
occurrence, keeping empty segments; the empty string yields `[""]`. -/
def splitOnChar (sep : Char) : List Char → List (List Char)
  | [] => [[]]
  | c :: cs =>
    match splitOnChar sep cs with
    | [] => [[c]]
    | s :: ss => if c = sep then [] :: s :: ss else (c :: s) :: ss

/-- Model of `id.split("/")` lifted to `String`. -/
def pySplit (sep : Char) (s : String) : List String :=
  (splitOnChar sep s.toList).map List.asString

/-- Model of line 88 of `list_resource_types.py`: segment 4 of the identifier
split on slashes when there are more than four segments, else "Unknown". -/
def parseResourceGroup (id : String) : String :=
  let parts := pySplit '/' id
  if h : 4 < parts.length then parts.get ⟨4, h⟩ else "Unknown"

/-- The distinct keys of a list in first-encounter order — the key order of a
Python `Counter`/dict built by a single pass. -/
def dedupFirst : List String → List String
  | [] => []
  | k :: ks => k :: (dedupFirst ks).filter (fun x => x != k)

/-- Model of `Counter(ks)` as an association list: distinct keys in
first-encounter order, each with its multiplicity. -/
def tally (ks : List String) : List (String × Nat) :=
  (dedupFirst ks).map (fun k => (k, ks.count k))

/-- Insert a keyed count into a descending-by-count list, before the first
entry of smaller-or-equal count (so earlier entries win ties). -/
def insertCnt (p : String × Nat) : List (String × Nat) → List (String × Nat)
  | [] => [p]
  | q :: qs => if q.2 ≤ p.2 then p :: q :: qs else q :: insertCnt p qs

/-- Stable descending-by-count sort: the ordering used by
`Counter.most_common`, whose ties keep first-encounter order. -/
def sortCountDesc : List (String × Nat) → List (String × Nat)
  | [] => []
  | p :: ps => insertCnt p (sortCountDesc ps)

/-- Model of `Counter(ks).most_common(n)`: first `n` entries of the stable
descending sort of the tally. -/
def mostCommonN (n : Nat) (ks : List String) : List (String × Nat) :=
  (sortCountDesc (tally ks)).take n

def typesOf (resources : List Resource) : List String :=
  resources.map Resource.type

def locationsOf (resources : List Resource) : List String :=
  resources.map Resource.location

def resourceGroupsOf (resources : List Resource) : List String :=
  resources.map Resource.resource_group

def subscriptionIdsOf (resources : List Resource) : List String :=
  resources.map Resource.subscription_id

/-- Model of `dict(location_counts.most_common(10))` (line 204). -/
def topLocations (resources : List Resource) : List (String × Nat) :=
  mostCommonN 10 (locationsOf resources)

/-- Model of `dict(rg_counts.most_common(10))` (line 205). -/
def topResourceGroups (resources : List Resource) : List (String × Nat) :=
  mostCommonN 10 (resourceGroupsOf resources)

/-- Model of `dict(subscription_counts.items())` (line 206): full tally,
insertion order. -/
def subscriptionDistribution (resources : List Resource) : List (String × Nat) :=
  tally (subscriptionIdsOf resources)

/-- Model of `round(x, 2)` over exact rationals: round `x * 100` to an
integer, then divide back. -/
def roundTo2 (x : ℚ) : ℚ :=
  (round (x * 100) : ℤ) / 100

/-- Model of the percentage computation on line 215. -/
def pct (count total : Nat) : ℚ :=
  roundTo2 ((count : ℚ) / (total : ℚ) * 100)

/-- The per-type record with count, description and percentage
(lines 212–216). -/
structure TypeDetail where
  count : Nat
  description : String
  percentage : ℚ
deriving DecidableEq

/-- The static description table of `get_resource_type_descriptions`
(lines 128–164). -/
def resourceTypeDescriptions : List (String × String) :=
  [("Microsoft.Compute/virtualMachines", "Virtual machines for running applications and workloads"),
   ("Microsoft.Storage/storageAccounts", "Storage accounts for data storage and file sharing"),
   ("Microsoft.Web/sites", "App Service web applications and APIs"),
   ("Microsoft.Sql/servers", "Azure SQL Database servers"),
   ("Microsoft.Sql/servers/databases", "Azure SQL databases"),
   ("Microsoft.Network/virtualNetworks", "Virtual networks for network isolation"),
   ("Microsoft.Network/networkSecurityGroups", "Network security groups for traffic filtering"),
   ("Microsoft.Network/publicIPAddresses", "Public IP addresses for internet connectivity"),
   ("Microsoft.Network/loadBalancers", "Load balancers for distributing traffic"),
   ("Microsoft.Network/networkInterfaces", "Network interfaces for VM connectivity"),
   ("Microsoft.KeyVault/vaults", "Key vaults for secrets and certificate management"),
   ("Microsoft.Insights/components", "Application Insights for application monitoring"),
   ("Microsoft.Authorization/roleAssignments", "Role assignments for access control"),
   ("Microsoft.Resources/resourceGroups", "Resource groups for organizing resources"),
   ("Microsoft.ContainerRegistry/registries", "Container registries for Docker images"),
   ("Microsoft.ContainerService/managedClusters", "Azure Kubernetes Service clusters"),
   ("Microsoft.ServiceBus/namespaces", "Service Bus namespaces for messaging"),
   ("Microsoft.EventHub/namespaces", "Event Hub namespaces for event streaming"),
   ("Microsoft.Logic/workflows", "Logic Apps for workflow automation"),
   ("Microsoft.Web/serverfarms", "App Service plans for hosting web apps"),
   ("Microsoft.CognitiveServices/accounts", "Cognitive Services for AI capabilities"),
   ("Microsoft.MachineLearningServices/workspaces", "Machine Learning workspaces"),
   ("Microsoft.DocumentDB/databaseAccounts", "Cosmos DB database accounts"),
   ("Microsoft.Cache/Redis", "Azure Cache for Redis"),
   ("Microsoft.ApiManagement/service", "API Management services"),
   ("Microsoft.DataFactory/factories", "Data Factory for data integration"),
   ("Microsoft.StreamAnalytics/streamingjobs", "Stream Analytics for real-time analytics"),
   ("Microsoft.Automation/automationAccounts", "Automation accounts for runbooks"),
   ("Microsoft.RecoveryServices/vaults", "Recovery Services vaults for backup"),
   ("Microsoft.Network/applicationGateways", "Application gateways for web traffic management"),
   ("Microsoft.OperationalInsights/workspaces", "Log Analytics workspaces for monitoring and logging"),
   ("Microsoft.Security/automations", "Security Center automation rules"),
   ("Microsoft.ManagedIdentity/userAssignedIdentities", "User-assigned managed identities"),
   ("Microsoft.AlertsManagement/actionRules", "Action rules for alert management"),
   ("Microsoft.Monitor/actionGroups", "Action groups for alert notifications")]

/-- Model of the description lookup with default on line 214. -/
def descriptionFor (t : String) : String :=
  (resourceTypeDescriptions.lookup t).getD "No description available"

/-- The `resource_types` mapping filled by the `most_common()` loop
(lines 211–216): types in stable descending-count order, with details. -/
def resourceTypes (resources : List Resource) : List (String × TypeDetail) :=
  (sortCountDesc (tally (typesOf resources))).map
    (fun p => (p.1, TypeDetail.mk p.2 (descriptionFor p.1) (pct p.2 resources.length)))

/-- A value of the analysis dictionary. -/
inductive AVal where
  | nat : Nat → AVal
  | counts : List (String × Nat) → AVal
  | details : List (String × TypeDetail) → AVal
  | strs : List String → AVal
deriving DecidableEq

/-- Model of `analyze_resource_types` (lines 166–218) as an association list
in dict insertion order, with the `target_subscriptions` field of the analyzer
passed explicitly.  The `if not resources` branch (lines 176–183) builds a
five-entry dict with no `subscription_distribution` key. -/
def analyzeResourceTypes (targets : List String) (resources : List Resource) :
    List (String × AVal) :=
  if resources.isEmpty then
    [("total_resources", AVal.nat 0),
     ("resource_types", AVal.details []),
     ("top_locations", AVal.counts []),
     ("top_resource_groups", AVal.counts []),
     ("subscriptions_scanned", AVal.strs targets)]
  else
    [("total_resources", AVal.nat resources.length),
     ("resource_types", AVal.details (resourceTypes resources)),
     ("top_locations", AVal.counts (topLocations resources)),
     ("top_resource_groups", AVal.counts (topResourceGroups resources)),
     ("subscription_distribution", AVal.counts (subscriptionDistribution resources)),
     ("subscriptions_scanned", AVal.strs targets)]

/-- The order in which `generate_report` (lines 250–253) walks the
`resource_types` section: the iteration order of the mapping itself. -/
def reportTypesOrder (analysis : List (String × AVal)) : List String :=
  match analysis.lookup "resource_types" with
  | some (AVal.details l) => l.map Prod.fst
  | _ => []

/-- Index of the first occurrence of `k` in a list (length of the list when
absent); used to state first-encounter tie-breaking. -/
def firstPos (k : String) : List String → Nat
  | [] => 0
  | x :: xs => if x = k then 0 else firstPos k xs + 1

end ResourceAnalyzer

namespace FilterGroups

theorem startsWithChars_iff (nd : List Char) :
    ∀ hay : List Char, startsWithChars hay nd = true ↔ ∃ rest, hay = nd ++ rest := by
  induction nd with
  | nil =>
    intro hay
    cases hay <;> simp [startsWithChars]
  | cons n ns ih =>
    intro hay
    cases hay with
    | nil => simp [startsWithChars]
    | cons h hs =>
      simp only [startsWithChars, Bool.and_eq_true, beq_iff_eq, ih hs,
        List.cons_append, List.cons.injEq]
      constructor
      · rintro ⟨he, rest, hrest⟩
        exact ⟨rest, he, hrest⟩
      · rintro ⟨rest, he, hrest⟩
        exact ⟨he, rest, hrest⟩

theorem containsSub_iff (nd : List Char) :
    ∀ hay : List Char, containsSub hay nd = true ↔ ∃ pre post, hay = pre ++ nd ++ post := by
  intro hay
  induction hay with
  | nil =>
    simp only [containsSub, List.isEmpty_iff]
    constructor
    · rintro rfl
      exact ⟨[], [], rfl⟩
    · rintro ⟨pre, post, h⟩
      rcases List.append_eq_nil.mp h.symm with ⟨h1, h2⟩
      exact (List.append_eq_nil.mp h1).2
  | cons h t ih =>
    simp only [containsSub, Bool.or_eq_true, startsWithChars_iff, ih]
    constructor
    · rintro (⟨rest, hrest⟩ | ⟨pre, post, hpp⟩)
      · exact ⟨[], rest, by simp [hrest]⟩
      · exact ⟨h :: pre, post, by simp [hpp]⟩
    · rintro ⟨pre, post, hpp⟩
      cases pre with
      | nil =>
        exact Or.inl ⟨post, by simpa using hpp⟩
      | cons p ps =>
        simp only [List.cons_append, List.cons.injEq] at hpp
        exact Or.inr ⟨ps, post, hpp.2⟩

theorem shouldExclude_iff (r : Row) : shouldExclude r = true ↔ SpecExcluded r := by
  simp only [shouldExclude, List.any_eq_true, SpecExcluded, containsSub_iff]

/-- Claim C1: the output of the filter is exactly the input rows whose BOM-stripped
`Name` contains none of the fixed exclusion substrings; every surviving row is
unchanged and the output is a subsequence of the input (original relative
order). -/
theorem filter_exactly_non_excluded (rows : List Row) :
    filterProductionGroups rows = rows.filter (fun r => !shouldExclude r) ∧
    (filterProductionGroups rows).Sublist rows ∧
    (∀ r ∈ filterProductionGroups rows, ¬ SpecExcluded r) ∧
    (∀ r ∈ rows, ¬ SpecExcluded r → r ∈ filterProductionGroups rows) := by
  refine ⟨rfl, List.filter_sublist rows, ?_, ?_⟩
  · intro r hr
    have hmem := List.mem_filter.mp hr
    rw [← shouldExclude_iff]
    simpa using hmem.2
  · intro r hr hspec
    refine List.mem_filter.mpr ⟨hr, ?_⟩
    rw [← shouldExclude_iff] at hspec
    simpa using hspec

/-- Claim C3: a missing (or empty) `Name` field is treated as the empty string,
so such a row is never excluded and always survives the filter. -/
theorem missing_name_never_excluded (r : Row)
    (h : r.name = none ∨ r.name = some "") :
    cleanName r = "" ∧ shouldExclude r = false ∧
    ∀ rows : List Row, r ∈ rows → r ∈ filterProductionGroups rows := by
  have hclean : cleanName r = "" := by
    rcases h with h0 | h0 <;> (simp [cleanName, h0, stripBOM]; rfl)
  have hexc : shouldExclude r = false := by
    rw [shouldExclude, hclean]
    decide
  refine ⟨hclean, hexc, ?_⟩
  intro rows hr
  exact List.mem_filter.mpr ⟨hr, by simp [hexc]⟩

/-- Witness for C3 at a concrete row with no `Name` field. -/
theorem missing_name_never_excluded_witness :
    (Row.mk none "1").name = none ∧
    cleanName (Row.mk none "1") = "" ∧
    shouldExclude (Row.mk none "1") = false ∧
    Row.mk none "1" ∈ filterProductionGroups [Row.mk none "1"] := by
  have h := missing_name_never_excluded (Row.mk none "1") (Or.inl rfl)
  exact ⟨rfl, h.1, h.2.1, h.2.2 [Row.mk none "1"] (by simp)⟩

/-- Claim C8: filtering is idempotent — re-filtering the output is a no-op. -/
theorem filter_idempotent (rows : List Row) :
    filterProductionGroups (filterProductionGroups rows) = filterProductionGroups rows := by
  simp [filterProductionGroups, List.filter_filter]


end FilterGroups

namespace ResourceAnalyzer

/-- Claim C7: the resource group is segment 4 of the identifier split on
slashes, or "Unknown" when there are fewer than five segments; checked both as
a general equation and on the two scenarios given by the spec. -/
theorem resource_group_is_fifth_segment :
    (∀ id : String,
      parseResourceGroup id = ((pySplit '/' id).get? 4).getD "Unknown") ∧
    parseResourceGroup "/subscriptions/x/resourceGroups/rg1/providers/Microsoft.Web/sites/a" = "rg1" ∧
    parseResourceGroup "foo/bar" = "Unknown" := by
  refine ⟨?_, by decide, by decide⟩
  intro id
  unfold parseResourceGroup
  by_cases h : 4 < (pySplit '/' id).length
  · simp only [h, dite_true, List.get?_eq_get h, Option.getD_some]
  · simp only [h, dite_false, List.get?_eq_none.mpr (Nat.le_of_not_lt h), Option.getD_none]

/-- Claim C9: `subscriptions_scanned` is always the configured target list
verbatim, independent of what was resolved or scanned — shown in general and
on a concrete run where resolution finds nothing. -/
theorem subscriptions_scanned_is_target_list :
    (∀ (targets : List String) (resources : List Resource),
      (analyzeResourceTypes targets resources).lookup "subscriptions_scanned" =
        some (AVal.strs targets)) ∧
    getSubscriptions [] ["ESS-PROD-C00-001"] = [] ∧
    (analyzeResourceTypes ["ESS-PROD-C00-001"] []).lookup "subscriptions_scanned" =
      some (AVal.strs ["ESS-PROD-C00-001"]) := by
  refine ⟨?_, rfl, rfl⟩
  intro targets resources
  cases resources with
  | nil => rfl
  | cons r rs => rfl

/-- Counterexample to claim C2: on the empty resource list the analysis has no
`subscription_distribution` key. -/
theorem empty_analysis_lacks_subscription_distribution :
    ¬ ("subscription_distribution" ∈
        (analyzeResourceTypes ["s1"] []).map Prod.fst) := by
  decide

/-- Claim C2 (amended): a non-empty resource list yields exactly the six
top-level keys in insertion order; the empty list yields only five — the
`subscription_distribution` key is absent. -/
theorem analysis_keys (targets : List String) (resources : List Resource) :
    (analyzeResourceTypes targets resources).map Prod.fst =
      if resources.isEmpty then
        ["total_resources", "resource_types", "top_locations",
         "top_resource_groups", "subscriptions_scanned"]
      else
        ["total_resources", "resource_types", "top_locations",
         "top_resource_groups", "subscription_distribution",
         "subscriptions_scanned"] := by
  cases resources with
  | nil => rfl
  | cons r rs => rfl

theorem insertCnt_perm (p : String × Nat) :
    ∀ l, List.Perm (insertCnt p l) (p :: l) := by
  intro l
  induction l with
  | nil => exact List.Perm.refl _
  | cons q qs ih =>
    rw [insertCnt]
    by_cases h : q.2 ≤ p.2
    · rw [if_pos h]
    · rw [if_neg h]
      exact (ih.cons q).trans (List.Perm.swap p q qs)

theorem mem_insertCnt {x p : String × Nat} {l : List (String × Nat)} :
    x ∈ insertCnt p l ↔ x = p ∨ x ∈ l := by
  rw [(insertCnt_perm p l).mem_iff, List.mem_cons]

theorem insertCnt_sorted {p : String × Nat} {l : List (String × Nat)}
    (hl : List.Pairwise (fun a b => b.2 ≤ a.2) l) :
    List.Pairwise (fun a b => b.2 ≤ a.2) (insertCnt p l) := by
  induction l with
  | nil => simp [insertCnt]
  | cons q qs ih =>
    rw [insertCnt]
    rcases List.pairwise_cons.mp hl with ⟨hq, hqs⟩
    by_cases h : q.2 ≤ p.2
    · rw [if_pos h]
      refine List.pairwise_cons.mpr ⟨?_, hl⟩
      intro x hx
      rcases List.mem_cons.mp hx with rfl | hx'
      · exact h
      · exact le_trans (hq x hx') h
    · rw [if_neg h]
      refine List.pairwise_cons.mpr ⟨?_, ih hqs⟩
      intro x hx
      rcases mem_insertCnt.mp hx with rfl | hx'
      · exact le_of_lt (Nat.lt_of_not_le h)
      · exact hq x hx'

theorem sortCountDesc_sorted (l : List (String × Nat)) :
    List.Pairwise (fun a b => b.2 ≤ a.2) (sortCountDesc l) := by
  induction l with
  | nil => simp [sortCountDesc]
  | cons p ps ih => exact insertCnt_sorted ih

theorem sortCountDesc_perm (l : List (String × Nat)) :
    List.Perm (sortCountDesc l) l := by
  induction l with
  | nil => exact List.Perm.refl _
  | cons p ps ih => exact (insertCnt_perm p (sortCountDesc ps)).trans (ih.cons p)

theorem insertCnt_stable {T : (String × Nat) → (String × Nat) → Prop}
    {p : String × Nat} {l : List (String × Nat)}
    (hp : ∀ r ∈ l, p.2 = r.2 → T p r)
    (hl : List.Pairwise (fun a b => a.2 = b.2 → T a b) l) :
    List.Pairwise (fun a b => a.2 = b.2 → T a b) (insertCnt p l) := by
  induction l with
  | nil => simp [insertCnt]
  | cons q qs ih =>
    rw [insertCnt]
    rcases List.pairwise_cons.mp hl with ⟨hq, hqs⟩
    by_cases h : q.2 ≤ p.2
    · rw [if_pos h]
      exact List.pairwise_cons.mpr ⟨hp, hl⟩
    · rw [if_neg h]
      refine List.pairwise_cons.mpr ⟨?_, ih (fun r hr => hp r (List.mem_cons_of_mem q hr)) hqs⟩
      intro x hx heq
      rcases mem_insertCnt.mp hx with rfl | hx'
      · exact absurd (le_of_eq heq) h
      · exact hq x hx' heq

theorem sortCountDesc_stable {T : (String × Nat) → (String × Nat) → Prop}
    {l : List (String × Nat)}
    (hl : List.Pairwise (fun a b => a.2 = b.2 → T a b) l) :
    List.Pairwise (fun a b => a.2 = b.2 → T a b) (sortCountDesc l) := by
  induction l with
  | nil => simp [sortCountDesc]
  | cons p ps ih =>
    rcases List.pairwise_cons.mp hl with ⟨hp, hps⟩
    refine insertCnt_stable ?_ (ih hps)
    intro r hr
    exact hp r ((sortCountDesc_perm ps).subset hr)

theorem mem_dedupFirst {x : String} : ∀ {l : List String}, x ∈ dedupFirst l ↔ x ∈ l := by
  intro l
  induction l with
  | nil => simp [dedupFirst]
  | cons k ks ih =>
    by_cases hxk : x = k
    · subst hxk
      simp [dedupFirst]
    · simp [dedupFirst, List.mem_filter, ih, hxk]

theorem dedupFirst_nodup : ∀ l : List String, (dedupFirst l).Nodup := by
  intro l
  induction l with
  | nil => simp [dedupFirst]
  | cons k ks ih =>
    rw [dedupFirst]
    refine List.Pairwise.cons ?_ (List.Nodup.filter _ ih)
    intro x hx
    have := (List.mem_filter.mp hx).2
    simp only [bne_iff_ne, ne_eq] at this
    exact fun he => this he.symm

theorem dedupFirst_firstPos (ks : List String) :
    List.Pairwise (fun a b => firstPos a ks < firstPos b ks) (dedupFirst ks) := by
  induction ks with
  | nil => simp [dedupFirst]
  | cons k ks' ih =>
    rw [dedupFirst]
    refine List.pairwise_cons.mpr ⟨?_, ?_⟩
    · intro x hx
      have hne : x ≠ k := by
        have := (List.mem_filter.mp hx).2
        simpa [bne_iff_ne] using this
      have e0 : firstPos k (k :: ks') = 0 := by simp [firstPos]
      have e1 : firstPos x (k :: ks') = firstPos x ks' + 1 := by
        simp [firstPos, Ne.symm hne]
      rw [e0, e1]
      exact Nat.succ_pos _
    · refine (List.Pairwise.filter _ ih).imp_of_mem ?_
      intro a b ha hb hab
      have hna : a ≠ k := by
        have := (List.mem_filter.mp ha).2
        simpa [bne_iff_ne] using this
      have hnb : b ≠ k := by
        have := (List.mem_filter.mp hb).2
        simpa [bne_iff_ne] using this
      have e1 : firstPos a (k :: ks') = firstPos a ks' + 1 := by
        simp [firstPos, Ne.symm hna]
      have e2 : firstPos b (k :: ks') = firstPos b ks' + 1 := by
        simp [firstPos, Ne.symm hnb]
      rw [e1, e2]
      exact Nat.succ_lt_succ hab

theorem tally_firstPos (ks : List String) :
    List.Pairwise (fun a b => firstPos a.1 ks < firstPos b.1 ks) (tally ks) := by
  rw [tally, List.pairwise_map]
  exact dedupFirst_firstPos ks

/-- The stable descending sort of a tally is ordered by strictly descending
count, with ties ordered by first occurrence in the key list. -/
theorem sortTally_ordered (ks : List String) :
    List.Pairwise
      (fun a b => b.2 < a.2 ∨ (b.2 = a.2 ∧ firstPos a.1 ks < firstPos b.1 ks))
      (sortCountDesc (tally ks)) := by
  have hsorted := sortCountDesc_sorted (tally ks)
  have hstable :
      List.Pairwise (fun a b => a.2 = b.2 → firstPos a.1 ks < firstPos b.1 ks)
        (sortCountDesc (tally ks)) := by
    refine sortCountDesc_stable ?_
    refine (tally_firstPos ks).imp ?_
    intro a b hab _
    exact hab
  refine (hsorted.and hstable).imp ?_
  rintro a b ⟨h1, h2⟩
  rcases lt_or_eq_of_le h1 with hlt | heq
  · exact Or.inl hlt
  · exact Or.inr ⟨heq, h2 heq.symm⟩

theorem mostCommonN_spec (n : Nat) (ks : List String) :
    (mostCommonN n ks).length ≤ n ∧
    List.Pairwise
      (fun a b => b.2 < a.2 ∨ (b.2 = a.2 ∧ firstPos a.1 ks < firstPos b.1 ks))
      (mostCommonN n ks) :=
  ⟨List.length_take_le n _,
   List.Pairwise.sublist (List.take_sublist n _) (sortTally_ordered ks)⟩

/-- Claim C5: `top_locations` and `top_resource_groups` each have at most ten
entries, in descending-count order with ties in first-encounter order. -/
theorem top_mappings_at_most_ten_sorted (resources : List Resource) :
    ((topLocations resources).length ≤ 10 ∧
      List.Pairwise
        (fun a b => b.2 < a.2 ∨ (b.2 = a.2 ∧
          firstPos a.1 (locationsOf resources) < firstPos b.1 (locationsOf resources)))
        (topLocations resources)) ∧
    ((topResourceGroups resources).length ≤ 10 ∧
      List.Pairwise
        (fun a b => b.2 < a.2 ∨ (b.2 = a.2 ∧
          firstPos a.1 (resourceGroupsOf resources) < firstPos b.1 (resourceGroupsOf resources)))
        (topResourceGroups resources)) :=
  ⟨mostCommonN_spec 10 (locationsOf resources),
   mostCommonN_spec 10 (resourceGroupsOf resources)⟩

/-- Claim C10: the `resource_types` mapping lists types in descending-count
order with ties in first-encounter order, and the report section walks it in
that same order. -/
theorem resource_types_sorted_desc (resources : List Resource) (h : resources ≠ []) :
    List.Pairwise
      (fun a b => b.2.count < a.2.count ∨ (b.2.count = a.2.count ∧
        firstPos a.1 (typesOf resources) < firstPos b.1 (typesOf resources)))
      (resourceTypes resources) ∧
    ∀ targets : List String,
      reportTypesOrder (analyzeResourceTypes targets resources) =
        (resourceTypes resources).map Prod.fst := by
  constructor
  · rw [resourceTypes, List.pairwise_map]
    exact (sortTally_ordered (typesOf resources)).imp (fun hab => hab)
  · intro targets
    cases resources with
    | nil => exact absurd rfl h
    | cons r rs => rfl

/-- Witness for C10 on a three-resource list with two types. -/
theorem resource_types_sorted_desc_witness :
    ([Resource.mk "Microsoft.Web/sites" "w1" "eastus" "rg1" "s1",
      Resource.mk "Microsoft.Sql/servers" "d1" "eastus" "rg1" "s1",
      Resource.mk "Microsoft.Web/sites" "w2" "westus" "rg2" "s1"] ≠
        ([] : List Resource)) ∧
    List.Pairwise
      (fun a b => b.2.count < a.2.count ∨ (b.2.count = a.2.count ∧
        firstPos a.1 (typesOf
          [Resource.mk "Microsoft.Web/sites" "w1" "eastus" "rg1" "s1",
           Resource.mk "Microsoft.Sql/servers" "d1" "eastus" "rg1" "s1",
           Resource.mk "Microsoft.Web/sites" "w2" "westus" "rg2" "s1"]) <
          firstPos b.1 (typesOf
          [Resource.mk "Microsoft.Web/sites" "w1" "eastus" "rg1" "s1",
           Resource.mk "Microsoft.Sql/servers" "d1" "eastus" "rg1" "s1",
           Resource.mk "Microsoft.Web/sites" "w2" "westus" "rg2" "s1"])))
      (resourceTypes
        [Resource.mk "Microsoft.Web/sites" "w1" "eastus" "rg1" "s1",
         Resource.mk "Microsoft.Sql/servers" "d1" "eastus" "rg1" "s1",
         Resource.mk "Microsoft.Web/sites" "w2" "westus" "rg2" "s1"]) :=
  ⟨by simp,
   (resource_types_sorted_desc
     [Resource.mk "Microsoft.Web/sites" "w1" "eastus" "rg1" "s1",
      Resource.mk "Microsoft.Sql/servers" "d1" "eastus" "rg1" "s1",
      Resource.mk "Microsoft.Web/sites" "w2" "westus" "rg2" "s1"] (by simp)).1⟩

theorem filter_bne_of_not_mem {k : String} {l : List String} (h : k ∉ l) :
    l.filter (fun x => x != k) = l := by
  refine List.filter_eq_self.mpr ?_
  intro a ha
  simp only [bne_iff_ne, ne_eq, decide_eq_true_eq]
  exact fun he => h (he ▸ ha)

theorem sum_map_of_nodup_mem {l : List String} {k : String} (f : String → Nat)
    (hn : l.Nodup) (hk : k ∈ l) :
    (l.map f).sum = f k + ((l.filter (fun x => x != k)).map f).sum := by
  induction l with
  | nil => cases hk
  | cons a l' ih =>
    rcases List.pairwise_cons.mp hn with ⟨hal, hn'⟩
    by_cases hak : a = k
    · subst hak
      have hknot : a ∉ l' := fun hmem => (hal a hmem) rfl
      rw [List.filter_cons_of_neg (by simp), filter_bne_of_not_mem hknot]
      simp
    · have hk' : k ∈ l' := by
        rcases List.mem_cons.mp hk with rfl | hmem
        · exact absurd rfl hak
        · exact hmem
      rw [List.filter_cons_of_pos (by simp [hak]), List.map_cons, List.sum_cons,
        List.map_cons, List.sum_cons, ih hn' hk']
      omega

theorem sum_dedupFirst_count : ∀ ks : List String,
    ((dedupFirst ks).map (fun k => ks.count k)).sum = ks.length := by
  intro ks
  induction ks with
  | nil => simp [dedupFirst]
  | cons k ks' ih =>
    rw [dedupFirst, List.map_cons, List.sum_cons]
    have hcount : ∀ x ∈ (dedupFirst ks').filter (fun x => x != k),
        (k :: ks').count x = ks'.count x := by
      intro x hx
      have hne : x ≠ k := by
        have := (List.mem_filter.mp hx).2
        simpa [bne_iff_ne] using this
      exact List.count_cons_of_ne hne _
    rw [List.map_congr_left hcount, List.count_cons_self, List.length_cons]
    by_cases hk : k ∈ ks'
    · have hsplit : ((dedupFirst ks').map (fun x => ks'.count x)).sum =
          ks'.count k +
            (((dedupFirst ks').filter (fun x => x != k)).map (fun x => ks'.count x)).sum :=
        sum_map_of_nodup_mem (fun x => ks'.count x) (dedupFirst_nodup ks') (mem_dedupFirst.mpr hk)
      omega
    · rw [filter_bne_of_not_mem (fun hmem => hk (mem_dedupFirst.mp hmem)), ih,
        List.count_eq_zero_of_not_mem hk]
      omega

theorem sum_tally_counts (ks : List String) :
    ((tally ks).map Prod.snd).sum = ks.length := by
  rw [tally, List.map_map]
  exact sum_dedupFirst_count ks

theorem sum_abs_sub_le {α : Type} (l : List α) (f g : α → ℚ) (ε : ℚ)
    (h : ∀ a ∈ l, |f a - g a| ≤ ε) :
    |(l.map f).sum - (l.map g).sum| ≤ l.length * ε := by
  induction l with
  | nil => simp
  | cons a l' ih =>
    simp only [List.map_cons, List.sum_cons, List.length_cons]
    have h1 : |f a - g a| ≤ ε := h a (List.mem_cons_self a l')
    have h2 := ih (fun b hb => h b (List.mem_cons_of_mem a hb))
    have hsplit : f a + (l'.map f).sum - (g a + (l'.map g).sum) =
        (f a - g a) + ((l'.map f).sum - (l'.map g).sum) := by ring
    rw [hsplit]
    calc |(f a - g a) + ((l'.map f).sum - (l'.map g).sum)| ≤
        |f a - g a| + |(l'.map f).sum - (l'.map g).sum| := abs_add _ _
      _ ≤ ε + l'.length * ε := add_le_add h1 h2
      _ = (l'.length + 1 : ℚ) * ε := by ring
      _ = ((l'.length + 1 : ℕ) : ℚ) * ε := by push_cast; ring

theorem abs_roundTo2_sub (x : ℚ) : |roundTo2 x - x| ≤ 1 / 200 := by
  rw [roundTo2]
  have hsplit : ((round (x * 100) : ℤ) : ℚ) / 100 - x =
      (((round (x * 100) : ℤ) : ℚ) - x * 100) / 100 := by ring
  rw [hsplit, abs_div]
  have h100 : |(100 : ℚ)| = 100 := abs_of_pos (by norm_num)
  rw [h100]
  have h := abs_sub_round (x * 100)
  rw [abs_sub_comm] at h
  calc |((round (x * 100) : ℤ) : ℚ) - x * 100| / 100 ≤ (1 / 2) / 100 := by gcongr
    _ = 1 / 200 := by norm_num

/-- Claim C4: the resource-type percentages sum to 100 within
`0.01 × (number of distinct types)`. -/
theorem percentages_sum_near_100 (resources : List Resource) (h : resources ≠ []) :
    |((resourceTypes resources).map (fun p => p.2.percentage)).sum - 100| ≤
      ((resourceTypes resources).length : ℚ) * (1 / 100) := by
  have ht : ((resources.length : ℕ) : ℚ) ≠ 0 := by
    have : resources.length ≠ 0 := by
      simpa [List.length_eq_zero] using h
    exact_mod_cast this
  have hperm : List.Perm (sortCountDesc (tally (typesOf resources))) (tally (typesOf resources)) :=
    sortCountDesc_perm _
  have hsum_eq :
      ((resourceTypes resources).map (fun p => p.2.percentage)).sum =
        ((tally (typesOf resources)).map (fun p => pct p.2 resources.length)).sum := by
    rw [resourceTypes]
    have h1 := ((hperm.map
      (fun p => (p.1, TypeDetail.mk p.2 (descriptionFor p.1) (pct p.2 resources.length)))).map
        (fun q => q.2.percentage)).sum_eq
    rw [h1, List.map_map]
    refine congrArg List.sum (List.map_congr_left ?_)
    intro p _
    rfl
  have hlen_eq : (resourceTypes resources).length = (tally (typesOf resources)).length := by
    rw [resourceTypes, List.length_map]
    exact hperm.length_eq
  rw [hsum_eq, hlen_eq]
  have hexact :
      ((tally (typesOf resources)).map
        (fun p => (p.2 : ℚ) / (resources.length : ℚ) * 100)).sum = 100 := by
    have hcongr :
        ((tally (typesOf resources)).map
          (fun p => (p.2 : ℚ) / (resources.length : ℚ) * 100)).sum =
        ((tally (typesOf resources)).map
          (fun p => (p.2 : ℚ) * (100 / (resources.length : ℚ)))).sum := by
      refine congrArg List.sum (List.map_congr_left ?_)
      intro p _
      ring
    rw [hcongr, List.sum_map_mul_right]
    have hcast : ((tally (typesOf resources)).map (fun p => ((p.2 : ℕ) : ℚ))).sum =
        ((resources.length : ℕ) : ℚ) := by
      have hnat := sum_tally_counts (typesOf resources)
      have hlen : (typesOf resources).length = resources.length := List.length_map _ _
      calc ((tally (typesOf resources)).map (fun p => ((p.2 : ℕ) : ℚ))).sum =
          ((((tally (typesOf resources)).map Prod.snd).sum : ℕ) : ℚ) := by
            rw [Nat.cast_list_sum, List.map_map]
            refine congrArg List.sum (List.map_congr_left ?_)
            intro p _
            rfl
        _ = ((resources.length : ℕ) : ℚ) := by rw [hnat, hlen]
    rw [hcast]
    field_simp
  have happrox := sum_abs_sub_le (tally (typesOf resources))
    (fun p => pct p.2 resources.length)
    (fun p => (p.2 : ℚ) / (resources.length : ℚ) * 100)
    (1 / 200)
    (fun p _ => abs_roundTo2_sub _)
  rw [hexact] at happrox
  calc |((tally (typesOf resources)).map (fun p => pct p.2 resources.length)).sum - 100| ≤
      ((tally (typesOf resources)).length : ℚ) * (1 / 200) := happrox
    _ ≤ ((tally (typesOf resources)).length : ℚ) * (1 / 100) := by
        gcongr
        norm_num

/-- Witness for C4 on a single-resource list: one type at 100%. -/
theorem percentages_sum_near_100_witness :
    ([Resource.mk "Microsoft.Web/sites" "w1" "eastus" "rg1" "s1"] ≠
        ([] : List Resource)) ∧
    |((resourceTypes [Resource.mk "Microsoft.Web/sites" "w1" "eastus" "rg1" "s1"]).map
        (fun p => p.2.percentage)).sum - 100| ≤
      ((resourceTypes [Resource.mk "Microsoft.Web/sites" "w1" "eastus" "rg1" "s1"]).length : ℚ) *
        (1 / 100) :=
  ⟨by simp,
   percentages_sum_near_100 [Resource.mk "Microsoft.Web/sites" "w1" "eastus" "rg1" "s1"]
     (by simp)⟩

theorem mem_upsert {x : String × String} {m : List (String × String)} {k v : String}
    (hx : x ∈ upsert m k v) : x = (k, v) ∨ x ∈ m := by
  rw [upsert] at hx
  by_cases hc : m.any (fun p => p.1 == k) = true
  · rw [if_pos hc] at hx
    rcases List.mem_map.mp hx with ⟨p, hp, hpe⟩
    by_cases hpk : (p.1 == k) = true
    · rw [if_pos hpk] at hpe
      exact Or.inl hpe.symm
    · rw [if_neg hpk] at hpe
      exact Or.inr (hpe ▸ hp)
  · rw [if_neg hc] at hx
    rcases List.mem_append.mp hx with h | h
    · exact Or.inr h
    · exact Or.inl (List.mem_singleton.mp h)

theorem keys_upsert_superset {k' : String} {m : List (String × String)} {k v : String}
    (h : k' ∈ m.map Prod.fst) : k' ∈ (upsert m k v).map Prod.fst := by
  rw [upsert]
  by_cases hc : m.any (fun p => p.1 == k) = true
  · rw [if_pos hc, List.map_map]
    rcases List.mem_map.mp h with ⟨p, hp, hpk'⟩
    refine List.mem_map.mpr ⟨p, hp, ?_⟩
    simp only [Function.comp]
    by_cases hpk : (p.1 == k) = true
    · rw [if_pos hpk]
      have : p.1 = k := beq_iff_eq.mp hpk
      rw [← hpk', ← this]
    · rw [if_neg hpk]
      exact hpk'
  · rw [if_neg hc, List.map_append]
    exact List.mem_append.mpr (Or.inl h)

theorem key_mem_upsert (m : List (String × String)) (k v : String) :
    k ∈ (upsert m k v).map Prod.fst := by
  rw [upsert]
  by_cases hc : m.any (fun p => p.1 == k) = true
  · rw [if_pos hc, List.map_map]
    rcases List.any_eq_true.mp hc with ⟨p, hp, hpk⟩
    refine List.mem_map.mpr ⟨p, hp, ?_⟩
    simp only [Function.comp]
    rw [if_pos hpk]
  · rw [if_neg hc, List.map_append]
    exact List.mem_append.mpr (Or.inr (by simp))

theorem mem_subsStep {x : String × String} {m : List (String × String)} {s : Subscription}
    (hx : x ∈ subsStep m s) :
    x ∈ m ∨ (s.state = "Enabled" ∧ x.2 = s.subscription_id ∧
      (x.1 = s.display_name ∨ x.1 = s.subscription_id)) := by
  rw [subsStep] at hx
  by_cases hs : (s.state == "Enabled") = true
  · rw [if_pos hs] at hx
    have hse : s.state = "Enabled" := beq_iff_eq.mp hs
    rcases mem_upsert hx with h1 | h1
    · exact Or.inr ⟨hse, by simp [h1], Or.inr (by simp [h1])⟩
    · rcases mem_upsert h1 with h2 | h2
      · exact Or.inr ⟨hse, by simp [h2], Or.inl (by simp [h2])⟩
      · exact Or.inl h2
  · rw [if_neg hs] at hx
    exact Or.inl hx

theorem keys_subsStep_superset {k : String} {m : List (String × String)} {s : Subscription}
    (h : k ∈ m.map Prod.fst) : k ∈ (subsStep m s).map Prod.fst := by
  rw [subsStep]
  by_cases hs : (s.state == "Enabled") = true
  · rw [if_pos hs]
    exact keys_upsert_superset (keys_upsert_superset h)
  · rw [if_neg hs]
    exact h

theorem mem_foldl_subsStep :
    ∀ (subs : List Subscription) (m : List (String × String)) (x : String × String),
      x ∈ subs.foldl subsStep m →
        x ∈ m ∨ ∃ s ∈ subs, s.state = "Enabled" ∧ x.2 = s.subscription_id ∧
          (x.1 = s.display_name ∨ x.1 = s.subscription_id) := by
  intro subs
  induction subs with
  | nil => exact fun m x hx => Or.inl hx
  | cons s subs' ih =>
    intro m x hx
    rw [List.foldl_cons] at hx
    rcases ih _ x hx with h1 | ⟨s', hs', hrest⟩
    · rcases mem_subsStep h1 with h2 | h2
      · exact Or.inl h2
      · exact Or.inr ⟨s, List.mem_cons_self s subs', h2⟩
    · exact Or.inr ⟨s', List.mem_cons_of_mem s hs', hrest⟩

theorem keys_foldl_superset :
    ∀ (subs : List Subscription) (m : List (String × String)) {k : String},
      k ∈ m.map Prod.fst → k ∈ (subs.foldl subsStep m).map Prod.fst := by
  intro subs
  induction subs with
  | nil => exact fun m k h => h
  | cons s subs' ih =>
    intro m k h
    rw [List.foldl_cons]
    exact ih _ (keys_subsStep_superset h)

theorem key_in_foldl :
    ∀ (subs : List Subscription) (m : List (String × String)) {s : Subscription},
      s ∈ subs → s.state = "Enabled" →
        s.display_name ∈ (subs.foldl subsStep m).map Prod.fst ∧
        s.subscription_id ∈ (subs.foldl subsStep m).map Prod.fst := by
  intro subs
  induction subs with
  | nil => intro m s hs _; cases hs
  | cons s0 subs' ih =>
    intro m s hs hen
    rw [List.foldl_cons]
    rcases List.mem_cons.mp hs with rfl | hs'
    · have hsb : (s.state == "Enabled") = true := beq_iff_eq.mpr hen
      have hd : s.display_name ∈ (subsStep m s).map Prod.fst := by
        rw [subsStep, if_pos hsb]
        exact keys_upsert_superset (key_mem_upsert m s.display_name s.subscription_id)
      have hi : s.subscription_id ∈ (subsStep m s).map Prod.fst := by
        rw [subsStep, if_pos hsb]
        exact key_mem_upsert _ _ _
      exact ⟨keys_foldl_superset subs' _ hd, keys_foldl_superset subs' _ hi⟩
    · exact ih _ hs' hen

theorem lookup_eq_some_mem {l : List (String × String)} {k v : String}
    (h : l.lookup k = some v) : (k, v) ∈ l := by
  induction l with
  | nil => simp [List.lookup] at h
  | cons a l' ih =>
    obtain ⟨a1, a2⟩ := a
    by_cases hk : (k == a1) = true
    · have hkeq : k = a1 := beq_iff_eq.mp hk
      simp only [List.lookup, hk, if_true] at h
      have : a2 = v := Option.some.inj h
      exact List.mem_cons.mpr (Or.inl (by rw [hkeq, this]))
    · simp only [List.lookup, hk, if_false] at h
      exact List.mem_cons_of_mem _ (ih h)

theorem lookup_isSome_iff {l : List (String × String)} {k : String} :
    (l.lookup k).isSome = true ↔ k ∈ l.map Prod.fst := by
  induction l with
  | nil => simp [List.lookup]
  | cons a l' ih =>
    obtain ⟨a1, a2⟩ := a
    by_cases hk : (k == a1) = true
    · have hkeq : k = a1 := beq_iff_eq.mp hk
      simp [List.lookup, hk, hkeq]
    · have hkne : k ≠ a1 := fun he => hk (beq_iff_eq.mpr he)
      simp [List.lookup, hk, ih, hkne]

theorem filterMap_eq_filter_map {α β : Type} (f : α → Option β) (d : β) :
    ∀ l : List α, l.filterMap f =
      (l.filter (fun a => (f a).isSome)).map (fun a => (f a).getD d) := by
  intro l
  induction l with
  | nil => rfl
  | cons a l' ih =>
    cases hfa : f a with
    | none =>
      rw [List.filterMap_cons_none hfa, List.filter_cons_of_neg (by simp [hfa]), ih]
    | some b =>
      rw [List.filterMap_cons_some hfa, List.filter_cons_of_pos (by simp [hfa]),
        List.map_cons, ih, hfa]
      rfl

/-- Claim C6: the resolver returns the IDs of found targets in target-list
order, skipping unmatched targets; a target is found exactly when some
enabled subscription matches it by display name or by ID, and every resolved
ID belongs to an enabled subscription matching the target. -/
theorem get_subscriptions_spec (subs : List Subscription) (targets : List String) :
    getSubscriptions subs targets =
      (targets.filter (fun t => (resolveTarget subs t).isSome)).map
        (fun t => (resolveTarget subs t).getD "") ∧
    (∀ t : String, (resolveTarget subs t).isSome = true ↔
      ∃ s ∈ subs, s.state = "Enabled" ∧ (t = s.display_name ∨ t = s.subscription_id)) ∧
    (∀ t v : String, resolveTarget subs t = some v →
      ∃ s ∈ subs, s.state = "Enabled" ∧ v = s.subscription_id ∧
        (t = s.display_name ∨ t = s.subscription_id)) := by
  refine ⟨filterMap_eq_filter_map (resolveTarget subs) "" targets, ?_, ?_⟩
  · intro t
    constructor
    · intro hsome
      rcases Option.isSome_iff_exists.mp hsome with ⟨v, hv⟩
      have hmem := lookup_eq_some_mem hv
      rcases mem_foldl_subsStep subs [] (t, v) hmem with h0 | ⟨s, hs, hen, _, hmatch⟩
      · cases h0
      · exact ⟨s, hs, hen, hmatch⟩
    · rintro ⟨s, hs, hen, hmatch⟩
      rw [resolveTarget, lookup_isSome_iff]
      rcases hmatch with rfl | rfl
      · exact (key_in_foldl subs [] hs hen).1
      · exact (key_in_foldl subs [] hs hen).2
  · intro t v hv
    have hmem := lookup_eq_some_mem hv
    rcases mem_foldl_subsStep subs [] (t, v) hmem with h0 | ⟨s, hs, hen, hveq, hmatch⟩
    · cases h0
    · exact ⟨s, hs, hen, hveq, hmatch⟩

end ResourceAnalyzer
